import Mathlib

set_option maxRecDepth 100000

/-!
Shallow embedding of the two core modules of this repository:

* `src/lib/cache/cache-manager.ts` — a TTL cache over a JavaScript `Map`
  (`CacheManager` below), with lazy expiry in `get`, a full expiry sweep plus
  capacity eviction in `cleanup` (run by every `set`), `has`, and `getStats`.
* `src/lib/security/token-encryption.ts` — an AES-256-GCM token cipher
  (`TokenEncryption` below) with base64/hex text encodings and a key derived by
  hashing an environment secret or a fixed fallback string.

Modelling conventions:
* A JavaScript `Map` is an insertion-ordered association list
  `List (K × CacheEntry T)`; `Map.set` overwrites in place, `Map.delete`
  removes by key, iteration follows list order.  Keys are strings in the
  source; the cache logic used by the claims is key-generic, so the embedding
  takes any `K` with decidable equality.
* `Date.now()` is an explicit `now : Int` argument (milliseconds).  A single
  `set` call reads the clock in `set` and again in `cleanup`; the embedding
  passes the same `now` to both, modelling the two reads happening at the
  same millisecond.
* `Array.prototype.sort` with the numeric comparator
  `a[1].expires - b[1].expires` is a stable ascending sort by `expires`;
  it is modelled by `List.insertionSort` (which is stable) on the
  corresponding `≤` relation.
* JavaScript strings are identified with their UTF-8 byte sequences
  (`List Nat`, each element `< 256`); UTF-8 encoding is injective, so this
  representation is lossless.  Base64 and hex text are likewise represented
  by the byte sequences of their ASCII characters.
* The Node `crypto` primitives (SHA-256, AES-256-GCM) are third-party code;
  they are abstracted as a `NodeCrypto` structure whose fields carry exactly
  the guarantees an authenticated cipher provides (ciphertext length equals
  plaintext length, 16-byte tag, decryption inverts encryption under the
  same key and nonce).  `randomBytes` output is an explicit `iv` argument.
-/

/-! ## Cache: data model (`src/lib/cache/cache-manager.ts`) -/

/-- Model of `CacheEntry` from `cache-manager.ts`: `data`, absolute expiry timestamp
`expires` (ms), and approximate `size`. -/
structure CacheEntry (T : Type) where
  data : T
  expires : Int
  size : Nat
  deriving Repr, DecidableEq

/-- The `CacheManager` state: the `Map` contents plus the cumulative hit and
miss counters. -/
structure CacheManager (K T : Type) where
  cache : List (K × CacheEntry T)
  hits : Nat
  misses : Nat
  deriving Repr

/-- The `CacheStats` record returned by `getStats` (`hitRate` is a JS float
division; it is modelled exactly as a rational). -/
structure CacheStats where
  size : Nat
  hitRate : ℚ
  entries : Nat
  memoryUsage : Nat
  deriving Repr, DecidableEq

namespace CacheManager

variable {K T : Type} [DecidableEq K]

/-- Model of `Map.get`: the value stored at `k`, if any (keys are unique in a JS
`Map`; on an association list this is the first binding). -/
def mapGet (k : K) (c : List (K × CacheEntry T)) : Option (CacheEntry T) :=
  (c.find? (fun p => p.1 = k)).map (fun p => p.2)

/-- Model of `Map.set`: overwrite the binding of `k` in place if present, else append
a new binding (JS `Map` insertion order). -/
def mapSet (k : K) (e : CacheEntry T) (c : List (K × CacheEntry T)) :
    List (K × CacheEntry T) :=
  if c.any (fun p => p.1 = k) then
    c.map (fun p => if p.1 = k then (k, e) else p)
  else
    c ++ [(k, e)]

/-- Model of `Map.delete`: remove the binding of `k`. -/
def mapDelete (k : K) (c : List (K × CacheEntry T)) : List (K × CacheEntry T) :=
  c.filter (fun p => p.1 ≠ k)

/-- Model of `keysToDelete.forEach(key => this.cache.delete(key))`: delete a list of
keys in order. -/
def deleteKeys (ks : List K) (c : List (K × CacheEntry T)) :
    List (K × CacheEntry T) :=
  ks.foldl (fun acc k => mapDelete k acc) c

/-- Model of `isExpired`: `entry.expires < Date.now()`. -/
def isExpired (e : CacheEntry T) (now : Int) : Bool :=
  decide (e.expires < now)

/-- The ordering used by the capacity eviction in `cleanup`:
`entries.sort((a, b) => a[1].expires - b[1].expires)` sorts ascending by
`expires`. -/
def entryLE (a b : K × CacheEntry T) : Prop :=
  a.2.expires ≤ b.2.expires

instance : DecidableRel (entryLE (K := K) (T := T)) :=
  fun a b => Int.decLe a.2.expires b.2.expires

instance : IsTotal (K × CacheEntry T) entryLE :=
  ⟨fun a b => Int.le_total a.2.expires b.2.expires⟩

instance : IsTrans (K × CacheEntry T) entryLE :=
  ⟨fun _ _ _ hab hbc => le_trans hab hbc⟩

/-- First phase of `cleanup`: collect every key whose entry satisfies
`entry.expires < now`, then delete those keys. -/
def removeExpired (c : List (K × CacheEntry T)) (now : Int) :
    List (K × CacheEntry T) :=
  deleteKeys ((c.filter (fun p => isExpired p.2 now)).map (fun p => p.1)) c

/-- Model of `cleanup`: sweep out expired entries; then, if more than 1000 entries
remain, sort all entries ascending by `expires` and delete the keys of the
first 100. -/
def cleanup (c : List (K × CacheEntry T)) (now : Int) :
    List (K × CacheEntry T) :=
  let c1 := removeExpired c now
  if 1000 < c1.length then
    let sorted := List.insertionSort entryLE c1
    deleteKeys ((sorted.take 100).map (fun p => p.1)) c1
  else
    c1

/-- Model of `get`: miss on an absent key; on an expired entry delete it and miss;
otherwise a hit returning the stored data.  Returns the result together with
the updated state. -/
def get (st : CacheManager K T) (key : K) (now : Int) :
    Option T × CacheManager K T :=
  match mapGet key st.cache with
  | none => (none, { st with misses := st.misses + 1 })
  | some e =>
    if isExpired e now then
      (none, { st with cache := mapDelete key st.cache, misses := st.misses + 1 })
    else
      (some e.data, { st with hits := st.hits + 1 })

/-- Model of `set`: store `data` under `key` with expiry `now + ttl*1000`, then run
`cleanup`.  `sz` models `calculateSize` (`JSON.stringify(data).length` with a
constant fallback), which is pure in the data. -/
def set (sz : T → Nat) (st : CacheManager K T) (key : K) (data : T)
    (ttl : Int) (now : Int) : CacheManager K T :=
  let e : CacheEntry T := { data := data, expires := now + ttl * 1000, size := sz data }
  { st with cache := cleanup (mapSet key e st.cache) now }

/-- Model of `has`: `entry ? !this.isExpired(entry) : false`. -/
def has (st : CacheManager K T) (key : K) (now : Int) : Bool :=
  match mapGet key st.cache with
  | some e => !(isExpired e now)
  | none => false

/-- Model of `getStats`: total size and count over the unexpired entries (the loop is
a fold over the `Map` values), lifetime hit rate, and the host-process heap
figure (`process.memoryUsage?.().heapUsed || 0`) passed in as `heapUsed`. -/
def getStats (st : CacheManager K T) (now : Int) (heapUsed : Nat) : CacheStats :=
  let acc := st.cache.foldl
    (fun acc p => if isExpired p.2 now then acc else (acc.1 + p.2.size, acc.2 + 1))
    ((0 : Nat), (0 : Nat))
  let totalRequests := st.hits + st.misses
  { size := acc.1
    hitRate := if 0 < totalRequests then (st.hits : ℚ) / (totalRequests : ℚ) else 0
    entries := acc.2
    memoryUsage := heapUsed }

end CacheManager

/-! ## Token cipher: text codecs (`Buffer` base64 / hex, Node semantics) -/

namespace TokenEncryption

/-- ASCII code of the base64 character for a sextet `n < 64`
(`A-Z`, `a-z`, `0-9`, `+`, `/`). -/
def encodeSextet (n : Nat) : Nat :=
  if n < 26 then 65 + n
  else if n < 52 then 97 + (n - 26)
  else if n < 62 then 48 + (n - 52)
  else if n = 62 then 43
  else 47

/-- Decode one ASCII code to a base64 sextet; `none` for characters outside
the base64 alphabet (the Node decoder skips those, the padding character
included). -/
def decodeSextet (c : Nat) : Option Nat :=
  if 65 ≤ c ∧ c ≤ 90 then some (c - 65)
  else if 97 ≤ c ∧ c ≤ 122 then some (c - 97 + 26)
  else if 48 ≤ c ∧ c ≤ 57 then some (c - 48 + 52)
  else if c = 43 then some 62
  else if c = 47 then some 63
  else none

/-- Base64-encode a byte sequence in 3-byte groups with padding (ASCII 61),
as `toString` with the base64 encoding does on a `Buffer`. -/
def base64EncodeBytes : List Nat → List Nat
  | [] => []
  | [b0] =>
    [encodeSextet (b0 / 4), encodeSextet (b0 % 4 * 16), 61, 61]
  | [b0, b1] =>
    [encodeSextet (b0 / 4), encodeSextet (b0 % 4 * 16 + b1 / 16),
     encodeSextet (b1 % 16 * 4), 61]
  | b0 :: b1 :: b2 :: rest =>
    encodeSextet (b0 / 4) :: encodeSextet (b0 % 4 * 16 + b1 / 16) ::
    encodeSextet (b1 % 16 * 4 + b2 / 64) :: encodeSextet (b2 % 64) ::
    base64EncodeBytes rest

/-- Reassemble bytes from a sextet stream: 4 sextets to 3 bytes, a trailing
pair to 1 byte, a trailing triple to 2 bytes, a lone trailing sextet dropped
(the forgiving Node base64 decode). -/
def sextetsToBytes : List Nat → List Nat
  | s0 :: s1 :: s2 :: s3 :: rest =>
    (s0 * 4 + s1 / 16) :: (s1 % 16 * 16 + s2 / 4) :: (s2 % 4 * 64 + s3) ::
    sextetsToBytes rest
  | [s0, s1, s2] => [s0 * 4 + s1 / 16, s1 % 16 * 16 + s2 / 4]
  | [s0, s1] => [s0 * 4 + s1 / 16]
  | _ => []

/-- Base64 decoding via `Buffer.from`: skip characters outside the alphabet,
then reassemble bytes. -/
def base64DecodeBytes (text : List Nat) : List Nat :=
  sextetsToBytes (text.filterMap decodeSextet)

/-- ASCII code of the lowercase hex digit for `n < 16`. -/
def hexDigit (n : Nat) : Nat :=
  if n < 10 then 48 + n else 97 + (n - 10)

/-- Decode one ASCII code to a hex nibble (`0-9`, `a-f`, `A-F`). -/
def decodeHexDigit (c : Nat) : Option Nat :=
  if 48 ≤ c ∧ c ≤ 57 then some (c - 48)
  else if 97 ≤ c ∧ c ≤ 102 then some (c - 97 + 10)
  else if 65 ≤ c ∧ c ≤ 70 then some (c - 65 + 10)
  else none

/-- Hex-encode a byte sequence (the hex text output of `cipher.update`). -/
def hexEncodeBytes : List Nat → List Nat
  | [] => []
  | b :: rest => hexDigit (b / 16) :: hexDigit (b % 16) :: hexEncodeBytes rest

/-- Hex decoding via `Buffer.from`: decode digit pairs, stopping at the first
invalid pair. -/
def hexDecodeBytes : List Nat → List Nat
  | c0 :: c1 :: rest =>
    match decodeHexDigit c0, decodeHexDigit c1 with
    | some h, some l => (h * 16 + l) :: hexDecodeBytes rest
    | _, _ => []
  | _ => []

/-! ## Token cipher: the `TokenEncryption` class -/

/-- The guarantees of the Node `crypto` primitives used by `TokenEncryption`:
SHA-256 (`createHash`) and AES-256-GCM
(`createCipheriv`/`createDecipheriv`).  `gcmEnc key iv pt` returns the
ciphertext and the authentication tag; `gcmDec key iv ct tag` returns the
plaintext or `none` when decryption fails (bad key or nonce length, wrong
tag length, authentication failure).  The laws are exactly the contract of
an authenticated cipher with 16-byte tags and length-preserving encryption. -/
structure NodeCrypto where
  sha256 : List Nat → List Nat
  gcmEnc : List Nat → List Nat → List Nat → List Nat × List Nat
  gcmDec : List Nat → List Nat → List Nat → List Nat → Option (List Nat)
  sha256_length : ∀ b, (sha256 b).length = 32
  sha256_bytes : ∀ b, ∀ x ∈ sha256 b, x < 256
  gcmEnc_ct_length : ∀ key iv pt, (gcmEnc key iv pt).1.length = pt.length
  gcmEnc_tag_length : ∀ key iv pt, (gcmEnc key iv pt).2.length = 16
  gcmEnc_ct_bytes : ∀ key iv pt, (∀ b ∈ pt, b < 256) →
    ∀ b ∈ (gcmEnc key iv pt).1, b < 256
  gcmEnc_tag_bytes : ∀ key iv pt, ∀ b ∈ (gcmEnc key iv pt).2, b < 256
  gcmDec_gcmEnc : ∀ key iv pt, key.length = 32 → iv.length = 12 →
    gcmDec key iv (gcmEnc key iv pt).1 (gcmEnc key iv pt).2 = some pt

/-- Key length of the `aes-256-gcm` algorithm (`KEY_LENGTH = 32`). -/
def KEY_LENGTH : Nat := 32

/-- Nonce length: `IV_LENGTH = 12`. -/
def IV_LENGTH : Nat := 12

/-- Authentication tag length: `TAG_LENGTH = 16`. -/
def TAG_LENGTH : Nat := 16

/-- The UTF-8 bytes of the hard-coded development fallback key string
`figma-converter-dev-key-2024`. -/
def fallbackKey : List Nat :=
  [102, 105, 103, 109, 97, 45, 99, 111, 110, 118, 101, 114, 116, 101, 114,
   45, 100, 101, 118, 45, 107, 101, 121, 45, 50, 48, 50, 52]

/-- Model of `getEncryptionKey`: SHA-256 of `process.env.ENCRYPTION_KEY` when set,
else SHA-256 of the fallback string (plus a logged warning, not modelled). -/
def getEncryptionKey (C : NodeCrypto) (env : Option (List Nat)) : List Nat :=
  match env with
  | some keyFromEnv => C.sha256 keyFromEnv
  | none => C.sha256 fallbackKey

/-- Model of `encrypt`: derive the key, draw a random 12-byte `iv` (here an explicit
argument), AES-256-GCM-encrypt the token (the cipher output passes through a
hex encode/decode pair exactly as in the source), concatenate
`iv || ciphertext || authTag` and base64-encode.  With total primitives the
`catch` branch (return the token unencrypted) is unreachable and the nominal
path is the whole function. -/
def encrypt (C : NodeCrypto) (env : Option (List Nat)) (iv : List Nat)
    (token : List Nat) : List Nat :=
  let key := getEncryptionKey C env
  let ct := (C.gcmEnc key iv token).1
  let authTag := (C.gcmEnc key iv token).2
  let encrypted := hexEncodeBytes ct
  let combined := iv ++ hexDecodeBytes encrypted ++ authTag
  base64EncodeBytes combined

/-- Model of `decrypt`: base64-decode, split `iv = combined.subarray(0, 12)`,
`authTag = combined.subarray(-16)`, `encrypted = combined.subarray(12, -16)`
(`take`/`drop` with `Nat` truncation reproduces the clamping of `subarray`), then
AES-256-GCM-decrypt; on any failure the `catch` returns the input
unchanged. -/
def decrypt (C : NodeCrypto) (env : Option (List Nat))
    (encryptedToken : List Nat) : List Nat :=
  let key := getEncryptionKey C env
  let combined := base64DecodeBytes encryptedToken
  let iv := combined.take IV_LENGTH
  let authTag := combined.drop (combined.length - TAG_LENGTH)
  let encrypted := (combined.take (combined.length - TAG_LENGTH)).drop IV_LENGTH
  match C.gcmDec key iv encrypted authTag with
  | some decrypted => decrypted
  | none => encryptedToken

/-- Model of `isEncrypted`: decode as base64 and compare against
`minimumLength = IV_LENGTH + TAG_LENGTH + 1` (`Buffer.from` never throws, so
the `catch` branch is unreachable). -/
def isEncrypted (token : List Nat) : Bool :=
  decide (IV_LENGTH + TAG_LENGTH + 1 ≤ (base64DecodeBytes token).length)

/-- A concrete `NodeCrypto` instance (identity cipher with a constant tag and
hash), used to instantiate the abstract primitives at concrete inputs. -/
def idCrypto : NodeCrypto where
  sha256 := fun _ => List.replicate 32 0
  gcmEnc := fun _ _ pt => (pt, List.replicate 16 0)
  gcmDec := fun _ _ ct tag => if tag = List.replicate 16 0 then some ct else none
  sha256_length := fun _ => by simp
  sha256_bytes := fun _ x hx => by
    simp only [List.eq_of_mem_replicate hx]; omega
  gcmEnc_ct_length := fun _ _ _ => rfl
  gcmEnc_tag_length := fun _ _ _ => by simp
  gcmEnc_ct_bytes := fun _ _ _ h => h
  gcmEnc_tag_bytes := fun _ _ _ b hb => by
    simp only [List.eq_of_mem_replicate hb]; omega
  gcmDec_gcmEnc := fun _ _ _ _ _ => by simp

end TokenEncryption

/-! ## Remaining definitions used by the theorems -/

namespace CacheManager

variable {K T : Type} [DecidableEq K]

/-- The cache contents after `set` has inserted its entry and `cleanup` has
swept out the expired entries, before the capacity check. -/
def afterInsertSweep (sz : T → Nat) (st : CacheManager K T) (key : K)
    (data : T) (ttl : Int) (now : Int) : List (K × CacheEntry T) :=
  removeExpired
    (mapSet key { data := data, expires := now + ttl * 1000, size := sz data } st.cache)
    now

/-- A concrete state with 1000 distinct unexpired entries (keys `0..999`,
expiries `3000..3999`), used to exercise the capacity-eviction path. -/
def bigCache : CacheManager Nat Nat :=
  { cache := (List.range 1000).map
      (fun i => (i, { data := 0, expires := 3000 + (i : Int), size := 1 }))
    hits := 0
    misses := 0 }

end CacheManager

/-! ## Cache lemmas: the association-list model of `Map` -/

namespace CacheManager

variable {K T : Type} [DecidableEq K]

theorem find?_filter_of_imp {α : Type} (p q : α → Bool) (l : List α)
    (h : ∀ a, p a = true → q a = true) :
    (l.filter q).find? p = l.find? p := by
  induction l with
  | nil => rfl
  | cons a l ih =>
    by_cases hpa : p a = true
    · rw [List.filter_cons, if_pos (h a hpa), List.find?_cons_of_pos _ hpa,
        List.find?_cons_of_pos _ hpa]
    · by_cases hqa : q a = true
      · rw [List.filter_cons, if_pos hqa, List.find?_cons_of_neg _ hpa,
          List.find?_cons_of_neg _ hpa, ih]
      · rw [List.filter_cons, if_neg hqa, List.find?_cons_of_neg _ hpa, ih]

theorem mem_mapDelete {p : K × CacheEntry T} {k : K} {c : List (K × CacheEntry T)} :
    p ∈ mapDelete k c ↔ p ∈ c ∧ p.1 ≠ k := by
  simp [mapDelete, List.mem_filter]

theorem mem_deleteKeys {p : K × CacheEntry T} {ks : List K}
    {c : List (K × CacheEntry T)} :
    p ∈ deleteKeys ks c ↔ p ∈ c ∧ p.1 ∉ ks := by
  induction ks generalizing c with
  | nil => simp [deleteKeys]
  | cons k ks ih =>
    rw [deleteKeys, List.foldl_cons,
      show (List.foldl (fun acc k => mapDelete k acc) (mapDelete k c) ks)
        = deleteKeys ks (mapDelete k c) from rfl, ih, mem_mapDelete]
    simp only [List.mem_cons]
    tauto

theorem deleteKeys_sublist (ks : List K) (c : List (K × CacheEntry T)) :
    List.Sublist (deleteKeys ks c) c := by
  induction ks generalizing c with
  | nil => simp [deleteKeys]
  | cons k ks ih =>
    rw [deleteKeys, List.foldl_cons]
    exact (ih (mapDelete k c)).trans (List.filter_sublist c)

theorem mapGet_eq_none_iff {k : K} {c : List (K × CacheEntry T)} :
    mapGet k c = none ↔ ∀ p ∈ c, p.1 ≠ k := by
  simp [mapGet, List.find?_eq_none]

theorem mapGet_mapDelete_self (k : K) (c : List (K × CacheEntry T)) :
    mapGet k (mapDelete k c) = none := by
  rw [mapGet_eq_none_iff]
  intro p hp
  exact (mem_mapDelete.mp hp).2

theorem mapGet_mapDelete_ne {k k' : K} (h : k' ≠ k) (c : List (K × CacheEntry T)) :
    mapGet k' (mapDelete k c) = mapGet k' c := by
  unfold mapGet mapDelete
  rw [find?_filter_of_imp]
  intro p hp
  simp only [decide_eq_true_eq] at hp ⊢
  rw [hp]
  exact h

theorem mapGet_deleteKeys_of_not_mem {k : K} {ks : List K}
    (h : k ∉ ks) (c : List (K × CacheEntry T)) :
    mapGet k (deleteKeys ks c) = mapGet k c := by
  induction ks generalizing c with
  | nil => rfl
  | cons k' ks ih =>
    rw [deleteKeys, List.foldl_cons,
      show (List.foldl (fun acc k => mapDelete k acc) (mapDelete k' c) ks)
        = deleteKeys ks (mapDelete k' c) from rfl,
      ih (fun hk => h (List.mem_cons_of_mem _ hk)),
      mapGet_mapDelete_ne (fun hk => h (by rw [hk]; exact List.mem_cons_self k' ks))]

theorem mapGet_deleteKeys_of_mem {k : K} {ks : List K}
    (h : k ∈ ks) (c : List (K × CacheEntry T)) :
    mapGet k (deleteKeys ks c) = none := by
  rw [mapGet_eq_none_iff]
  intro p hp
  exact fun hpk => (mem_deleteKeys.mp hp).2 (hpk ▸ h)

theorem keys_mapSet (k : K) (e : CacheEntry T) (c : List (K × CacheEntry T)) :
    (mapSet k e c).map (fun p => p.1)
      = if c.any (fun p => p.1 = k) then c.map (fun p => p.1)
        else c.map (fun p => p.1) ++ [k] := by
  unfold mapSet
  by_cases h : c.any (fun p => decide (p.1 = k)) = true
  · rw [if_pos h, if_pos h, List.map_map]
    refine List.map_congr_left (fun p _ => ?_)
    by_cases hpk : p.1 = k
    · simp [hpk]
    · simp [hpk]
  · rw [if_neg h, if_neg h, List.map_append]
    rfl

theorem nodupKeys_mapSet {k : K} {e : CacheEntry T} {c : List (K × CacheEntry T)}
    (h : (c.map (fun p => p.1)).Nodup) :
    ((mapSet k e c).map (fun p => p.1)).Nodup := by
  rw [keys_mapSet]
  by_cases hc : c.any (fun p => decide (p.1 = k)) = true
  · rw [if_pos hc]; exact h
  · rw [if_neg hc]
    rw [List.nodup_append]
    refine ⟨h, List.nodup_singleton k, ?_⟩
    intro a ha hk
    rw [List.mem_singleton] at hk
    rw [List.any_eq_true] at hc
    rw [List.mem_map] at ha
    obtain ⟨p, hp, hpa⟩ := ha
    exact hc ⟨p, hp, by rw [hpa, hk]; simp⟩

theorem mem_mapSet_self_key {p : K × CacheEntry T} {k : K} {e : CacheEntry T}
    {c : List (K × CacheEntry T)} (hp : p ∈ mapSet k e c) (hk : p.1 = k) :
    p = (k, e) := by
  unfold mapSet at hp
  by_cases hc : c.any (fun p => decide (p.1 = k)) = true
  · rw [if_pos hc] at hp
    rw [List.mem_map] at hp
    obtain ⟨q, _, hq⟩ := hp
    by_cases hqk : q.1 = k
    · rw [if_pos hqk] at hq; exact hq.symm
    · rw [if_neg hqk] at hq
      exact absurd (hq ▸ hk) hqk
  · rw [if_neg hc] at hp
    rw [List.mem_append] at hp
    rcases hp with hp | hp
    · exact absurd (List.any_eq_true.mpr ⟨p, hp, by simp [hk]⟩) hc
    · exact List.mem_singleton.mp hp

theorem mapGet_mapSet_self (k : K) (e : CacheEntry T) (c : List (K × CacheEntry T)) :
    mapGet k (mapSet k e c) = some e := by
  unfold mapGet mapSet
  by_cases hc : c.any (fun p => decide (p.1 = k)) = true
  · rw [if_pos hc]
    rw [List.find?_map]
    have hpred : ((fun p : K × CacheEntry T => decide (p.1 = k)) ∘
        (fun p : K × CacheEntry T => if p.1 = k then (k, e) else p))
        = (fun p : K × CacheEntry T => decide (p.1 = k)) := by
      funext p
      by_cases hpk : p.1 = k
      · simp [hpk]
      · simp [hpk]
    rw [hpred]
    rw [List.any_eq_true] at hc
    obtain ⟨p, hp, hpk⟩ := hc
    rw [decide_eq_true_eq] at hpk
    have hsome : (List.find? (fun p : K × CacheEntry T => decide (p.1 = k)) c).isSome = true :=
      List.find?_isSome.mpr ⟨p, hp, by simp [hpk]⟩
    obtain ⟨q, hq⟩ := Option.isSome_iff_exists.mp hsome
    rw [hq]
    have hqk : q.1 = k := by
      have := List.find?_some hq
      rwa [decide_eq_true_eq] at this
    simp [Option.map_some, hqk]
  · rw [if_neg hc]
    rw [List.find?_append]
    have h1 : c.find? (fun p => decide (p.1 = k)) = none := by
      rw [List.find?_eq_none]
      intro p hp hpk
      exact hc (List.any_eq_true.mpr ⟨p, hp, hpk⟩)
    rw [h1]
    simp [List.find?_cons]

end CacheManager

namespace CacheManager

variable {K T : Type} [DecidableEq K]

theorem not_expired_of_mem_removeExpired {p : K × CacheEntry T}
    {c : List (K × CacheEntry T)} {now : Int}
    (hp : p ∈ removeExpired c now) : ¬ (p.2.expires < now) := by
  intro hexp
  obtain ⟨hpc, hpk⟩ := mem_deleteKeys.mp hp
  exact hpk (List.mem_map.mpr ⟨p, List.mem_filter.mpr ⟨hpc, by
    simp [isExpired, hexp]⟩, rfl⟩)

theorem removeExpired_sublist (c : List (K × CacheEntry T)) (now : Int) :
    List.Sublist (removeExpired c now) c :=
  deleteKeys_sublist _ c

theorem cleanup_sublist_removeExpired (c : List (K × CacheEntry T)) (now : Int) :
    List.Sublist (cleanup c now) (removeExpired c now) := by
  unfold cleanup
  by_cases h : 1000 < (removeExpired c now).length
  · rw [if_pos h]
    exact deleteKeys_sublist _ _
  · rw [if_neg h]

theorem mapGet_removeExpired_mapSet_self {k : K} {e : CacheEntry T}
    {c : List (K × CacheEntry T)} {now : Int} (he : ¬ (e.expires < now)) :
    mapGet k (removeExpired (mapSet k e c) now) = some e := by
  unfold removeExpired
  rw [mapGet_deleteKeys_of_not_mem, mapGet_mapSet_self]
  intro hk
  rw [List.mem_map] at hk
  obtain ⟨q, hq, hqk⟩ := hk
  rw [List.mem_filter] at hq
  have hqke : q = (k, e) := mem_mapSet_self_key hq.1 hqk
  have : isExpired q.2 now = true := hq.2
  rw [hqke] at this
  simp only [isExpired, decide_eq_true_eq] at this
  exact he this

omit [DecidableEq K] in
theorem nodupKeys_of_sublist {c c' : List (K × CacheEntry T)}
    (hsub : List.Sublist c c') (h : (c'.map (fun p => p.1)).Nodup) :
    (c.map (fun p => p.1)).Nodup :=
  List.Nodup.sublist (List.Sublist.map _ hsub) h

/-- Unfolding of `set`: the final cache is the swept map, with the capacity
eviction applied when more than 1000 entries survive the sweep. -/
theorem set_cache_eq (sz : T → Nat) (st : CacheManager K T) (key : K)
    (data : T) (ttl : Int) (now : Int) :
    (set sz st key data ttl now).cache =
      if 1000 < (afterInsertSweep sz st key data ttl now).length then
        deleteKeys
          (((List.insertionSort entryLE
              (afterInsertSweep sz st key data ttl now)).take 100).map (fun p => p.1))
          (afterInsertSweep sz st key data ttl now)
      else
        afterInsertSweep sz st key data ttl now := rfl

end CacheManager

/-! ## Claim theorems: cache (C3, C7, C10) -/

namespace CacheManager

variable {K T : Type} [DecidableEq K]

/-- C3: a `get` on a key whose entry has expired returns a miss, removes the
entry from the cache (so a further lookup of that key finds nothing), and the
new cache is exactly the old one with that key deleted. -/
theorem get_expired_is_miss_and_removes {st : CacheManager K T} {k : K}
    {now : Int} {e : CacheEntry T} (hfind : mapGet k st.cache = some e)
    (hexp : e.expires < now) :
    (get st k now).1 = none ∧
    mapGet k (get st k now).2.cache = none ∧
    (get st k now).2.cache = mapDelete k st.cache := by
  have hb : isExpired e now = true := by simp [isExpired, hexp]
  refine ⟨?_, ?_, ?_⟩ <;>
    simp [get, hfind, hb, mapGet_mapDelete_self]

/-- Witness for C3 at a concrete one-entry cache whose entry expired. -/
theorem get_expired_is_miss_and_removes_witness :
    (get (⟨[(0, ⟨0, 5, 1⟩)], 0, 0⟩ : CacheManager Nat Nat) 0 10).1 = none ∧
    mapGet 0 (get (⟨[(0, ⟨0, 5, 1⟩)], 0, 0⟩ : CacheManager Nat Nat) 0 10).2.cache
      = none ∧
    (get (⟨[(0, ⟨0, 5, 1⟩)], 0, 0⟩ : CacheManager Nat Nat) 0 10).2.cache
      = mapDelete 0 [(0, ⟨0, 5, 1⟩)] :=
  get_expired_is_miss_and_removes (e := ⟨0, 5, 1⟩) (by decide) (by decide)

/-- C7: `has` answers `true` exactly when a `get` on the same state would be
a hit (a non-miss result), without returning the value. -/
theorem has_eq_true_iff_get_hit (st : CacheManager K T) (k : K) (now : Int) :
    has st k now = true ↔ (get st k now).1 ≠ none := by
  unfold has get
  cases hfind : mapGet k st.cache with
  | none => simp
  | some e =>
    cases hexp : isExpired e now with
    | false => simp [hexp]
    | true => simp [hexp]

/-- C10: after any `set`, no expired entry remains anywhere in the cache —
the cleanup run by `set` sweeps every key of the map, not only the one being
set, so filtering the resulting cache for expired entries yields nothing. -/
theorem set_leaves_no_expired_entry (sz : T → Nat) (st : CacheManager K T)
    (key : K) (data : T) (ttl now : Int) :
    (set sz st key data ttl now).cache.filter (fun p => isExpired p.2 now) = [] := by
  rw [List.filter_eq_nil_iff]
  intro p hp
  have hp1 : p ∈ removeExpired
      (mapSet key { data := data, expires := now + ttl * 1000, size := sz data }
        st.cache) now :=
    (cleanup_sublist_removeExpired _ now).subset hp
  have hne := not_expired_of_mem_removeExpired hp1
  simp [isExpired, hne]

end CacheManager

/-! ## Claim C2: set-then-get round trip (amended) and its counterexample -/

namespace CacheManager

variable {K T : Type} [DecidableEq K]

theorem bigCache_mapSet {k : Nat} (e : CacheEntry Nat) (hk : 1000 ≤ k) :
    mapSet k e bigCache.cache = bigCache.cache ++ [(k, e)] := by
  unfold mapSet
  rw [if_neg]
  intro h
  rw [List.any_eq_true] at h
  obtain ⟨p, hp, hpk⟩ := h
  rw [decide_eq_true_eq] at hpk
  rw [bigCache] at hp
  simp only [List.mem_map, List.mem_range] at hp
  obtain ⟨i, hi, hpi⟩ := hp
  rw [← hpi] at hpk
  omega

theorem bigCache_expires_ge {p : Nat × CacheEntry Nat}
    (hp : p ∈ bigCache.cache) : 3000 ≤ p.2.expires := by
  rw [bigCache] at hp
  simp only [List.mem_map, List.mem_range] at hp
  obtain ⟨i, hi, hpi⟩ := hp
  rw [← hpi]
  simp

theorem bigCache_append_sweep {k : Nat} {e : CacheEntry Nat}
    (he : ¬ (e.expires < 1000)) :
    removeExpired (bigCache.cache ++ [(k, e)]) 1000
      = bigCache.cache ++ [(k, e)] := by
  unfold removeExpired
  have hfilter : (bigCache.cache ++ [(k, e)]).filter
      (fun p => isExpired p.2 1000) = [] := by
    rw [List.filter_eq_nil_iff]
    intro p hp
    rw [List.mem_append] at hp
    rcases hp with hp | hp
    · have := bigCache_expires_ge hp
      simp only [isExpired, decide_eq_true_eq]
      omega
    · rw [List.mem_singleton] at hp
      rw [hp]
      simp only [isExpired, decide_eq_true_eq]
      exact he
  rw [hfilter]
  rfl

theorem bigCache_append_length (x : Nat × CacheEntry Nat) :
    (bigCache.cache ++ [x]).length = 1001 := by
  rw [List.length_append, bigCache]
  simp

/-- C2 (amended): `set(k, v, ttl)` followed by `get(k)` before `ttl` has
elapsed returns `v`, provided `ttl` is nonnegative and the cache does not
exceed the 1000-entry capacity after the insert and expiry sweep (so that
the capacity eviction in `cleanup` does not fire). -/
theorem set_then_get_returns_value (sz : T → Nat) (st : CacheManager K T)
    (k : K) (v : T) (ttl now nowGet : Int)
    (hcap : (afterInsertSweep sz st k v ttl now).length ≤ 1000)
    (httl : 0 ≤ ttl) (hbefore : nowGet < now + ttl * 1000) :
    (get (set sz st k v ttl now) k nowGet).1 = some v := by
  have hexp0 : ¬ (({ data := v, expires := now + ttl * 1000, size := sz v } :
      CacheEntry T).expires < now) := by
    have h1000 : (0 : Int) ≤ ttl * 1000 := mul_nonneg httl (by norm_num)
    simp only []
    omega
  have hfind : mapGet k (set sz st k v ttl now).cache
      = some { data := v, expires := now + ttl * 1000, size := sz v } := by
    rw [set_cache_eq, if_neg (not_lt.mpr hcap)]
    exact mapGet_removeExpired_mapSet_self hexp0
  have hb : isExpired ({ data := v, expires := now + ttl * 1000, size := sz v } :
      CacheEntry T) nowGet = false := by
    simp only [isExpired, decide_eq_false_iff_not]
    omega
  simp [get, hfind, hb]

/-- Witness for C2 (amended) on an empty cache: `set(0, 42, ttl 10s)` at time
0 followed by `get(0)` at time 5000 ms returns 42. -/
theorem set_then_get_returns_value_witness :
    (afterInsertSweep (fun _ => 1) (⟨[], 0, 0⟩ : CacheManager Nat Nat)
        0 42 10 0).length ≤ 1000 ∧
    (0 : Int) ≤ 10 ∧ (5000 : Int) < 0 + 10 * 1000 ∧
    (get (set (fun _ => 1) (⟨[], 0, 0⟩ : CacheManager Nat Nat) 0 42 10 0)
        0 5000).1 = some 42 :=
  ⟨by decide, by decide, by decide,
    set_then_get_returns_value _ _ _ _ _ _ _ (by decide) (by decide) (by decide)⟩

/-- C2 counterexample: the claim as stated (for every key, value and ttl,
`set` then `get` before the ttl elapses returns the value) fails when the
insert pushes the cache over 1000 entries and the fresh entry has the
soonest expiry: on `bigCache` (1000 entries expiring at 3000..3999),
`set(2000, 5, ttl 1s)` at time 1000 makes the new entry (expiry 2000) the
earliest-to-expire of 1001, the capacity eviction deletes it, and the
immediate `get(2000)` — well before its ttl has elapsed — misses. -/
theorem set_then_get_counterexample :
    (1000 : Int) < 1000 + 1 * 1000 ∧
    (get (set (fun _ => 1) bigCache 2000 5 1 1000) 2000 1000).1 ≠ some 5 := by
  refine ⟨by norm_num, ?_⟩
  have hentry : ({ data := 5, expires := 1000 + 1 * 1000, size := (fun _ => 1) 5 } :
      CacheEntry Nat) = { data := 5, expires := 2000, size := 1 } := by
    norm_num
  have hais : afterInsertSweep (fun _ => 1) bigCache 2000 5 1 1000
      = bigCache.cache ++ [(2000, { data := 5, expires := 2000, size := 1 })] := by
    unfold afterInsertSweep
    rw [hentry, bigCache_mapSet _ (by norm_num), bigCache_append_sweep (by norm_num)]
  have hlen : (afterInsertSweep (fun _ => 1) bigCache 2000 5 1 1000).length = 1001 := by
    rw [hais]
    exact bigCache_append_length _
  have hcache : (set (fun _ => 1) bigCache 2000 5 1 1000).cache
      = deleteKeys
          (((List.insertionSort entryLE
              (afterInsertSweep (fun _ => 1) bigCache 2000 5 1 1000)).take 100).map
            (fun p => p.1))
          (afterInsertSweep (fun _ => 1) bigCache 2000 5 1 1000) := by
    rw [set_cache_eq, if_pos (by rw [hlen]; norm_num)]
  have hkey : (2000 : Nat) ∈
      ((List.insertionSort entryLE
          (afterInsertSweep (fun _ => 1) bigCache 2000 5 1 1000)).take 100).map
        (fun p => p.1) := by
    cases hs : List.insertionSort entryLE
        (afterInsertSweep (fun _ => 1) bigCache 2000 5 1 1000) with
    | nil =>
      have := congrArg List.length hs
      rw [List.length_insertionSort, hlen] at this
      simp at this
    | cons a rest =>
      have hperm := List.perm_insertionSort entryLE
        (afterInsertSweep (fun _ => 1) bigCache 2000 5 1 1000)
      rw [hs] at hperm
      have hsorted := List.sorted_insertionSort entryLE
        (afterInsertSweep (fun _ => 1) bigCache 2000 5 1 1000)
      rw [hs] at hsorted
      have hmem : ((2000 : Nat), ({ data := 5, expires := 2000, size := 1 } :
          CacheEntry Nat)) ∈ a :: rest := by
        rw [hperm.mem_iff, hais, List.mem_append]
        exact Or.inr (List.mem_singleton.mpr rfl)
      have ha : a = ((2000 : Nat), ({ data := 5, expires := 2000, size := 1 } :
          CacheEntry Nat)) := by
        rcases List.mem_cons.mp hmem with h | h
        · exact h.symm
        · have hle : entryLE a (2000, { data := 5, expires := 2000, size := 1 }) :=
            (List.pairwise_cons.mp hsorted).1 _ h
          have hac : a ∈ afterInsertSweep (fun _ => 1) bigCache 2000 5 1 1000 :=
            hperm.mem_iff.mp (List.mem_cons_self a rest)
          rw [hais, List.mem_append] at hac
          rcases hac with hac | hac
          · have := bigCache_expires_ge hac
            unfold entryLE at hle
            simp at hle
            omega
          · exact List.mem_singleton.mp hac
      rw [List.take_succ_cons, List.map_cons, ha]
      exact List.mem_cons_self _ _
  have hnone : mapGet 2000 (set (fun _ => 1) bigCache 2000 5 1 1000).cache = none := by
    rw [hcache]
    exact mapGet_deleteKeys_of_mem hkey _
  simp [get, hnone]

end CacheManager

/-! ## Claim C4: capacity eviction removes the 100 soonest-to-expire entries -/

namespace CacheManager

variable {K T : Type} [DecidableEq K]

theorem mem_keys_mapDelete {k' k : K} {c : List (K × CacheEntry T)} :
    k' ∈ (mapDelete k c).map (fun p => p.1) ↔
      k' ∈ c.map (fun p => p.1) ∧ k' ≠ k := by
  simp only [List.mem_map]
  constructor
  · rintro ⟨p, hp, rfl⟩
    obtain ⟨hpc, hpk⟩ := mem_mapDelete.mp hp
    exact ⟨⟨p, hpc, rfl⟩, hpk⟩
  · rintro ⟨⟨p, hpc, rfl⟩, hne⟩
    exact ⟨p, mem_mapDelete.mpr ⟨hpc, hne⟩, rfl⟩

theorem mapDelete_eq_self_of_not_mem {k : K} {c : List (K × CacheEntry T)}
    (h : k ∉ c.map (fun p => p.1)) : mapDelete k c = c := by
  rw [mapDelete, List.filter_eq_self]
  intro p hp
  have hne : ¬ (p.1 = k) := fun hpk => h (List.mem_map.mpr ⟨p, hp, hpk⟩)
  simp [hne]

theorem mapDelete_length_of_mem {k : K} {c : List (K × CacheEntry T)}
    (hnd : (c.map (fun p => p.1)).Nodup) (hk : k ∈ c.map (fun p => p.1)) :
    (mapDelete k c).length + 1 = c.length := by
  induction c with
  | nil => simp at hk
  | cons p rest ih =>
    rw [List.map_cons, List.nodup_cons] at hnd
    rw [List.map_cons, List.mem_cons] at hk
    by_cases hpk : p.1 = k
    · have hrest : mapDelete k rest = rest :=
        mapDelete_eq_self_of_not_mem (by rw [hpk] at hnd; exact hnd.1)
      have hdrop : mapDelete k (p :: rest) = mapDelete k rest := by
        simp [mapDelete, List.filter_cons, hpk]
      rw [hdrop, hrest]
      simp
    · have hkrest : k ∈ rest.map (fun p => p.1) := by
        rcases hk with hk | hk
        · exact absurd hk.symm hpk
        · exact hk
      have hkeep : mapDelete k (p :: rest) = p :: mapDelete k rest := by
        simp [mapDelete, List.filter_cons, hpk]
      rw [hkeep]
      have := ih hnd.2 hkrest
      simp only [List.length_cons]
      omega

theorem deleteKeys_length {c : List (K × CacheEntry T)} {ks : List K}
    (hndc : (c.map (fun p => p.1)).Nodup) (hndks : ks.Nodup)
    (hmem : ∀ k ∈ ks, k ∈ c.map (fun p => p.1)) :
    (deleteKeys ks c).length + ks.length = c.length := by
  induction ks generalizing c with
  | nil => simp [deleteKeys]
  | cons k ks ih =>
    rw [List.nodup_cons] at hndks
    have hk : k ∈ c.map (fun p => p.1) := hmem k (List.mem_cons_self k ks)
    have hdel : (mapDelete k c).length + 1 = c.length :=
      mapDelete_length_of_mem hndc hk
    have hndc' : ((mapDelete k c).map (fun p => p.1)).Nodup :=
      nodupKeys_of_sublist (List.filter_sublist c) hndc
    have hmem' : ∀ k' ∈ ks, k' ∈ (mapDelete k c).map (fun p => p.1) := by
      intro k' hk'
      exact mem_keys_mapDelete.mpr
        ⟨hmem k' (List.mem_cons_of_mem _ hk'),
         fun hne => hndks.1 (hne ▸ hk')⟩
    have := ih hndc' hndks.2 hmem'
    rw [deleteKeys, List.foldl_cons,
      show (List.foldl (fun acc k => mapDelete k acc) (mapDelete k c) ks)
        = deleteKeys ks (mapDelete k c) from rfl]
    simp only [List.length_cons]
    omega

omit [DecidableEq K] in
theorem eq_of_mem_same_key {p q : K × CacheEntry T} {c : List (K × CacheEntry T)}
    (hnd : (c.map (fun p => p.1)).Nodup) (hp : p ∈ c) (hq : q ∈ c)
    (hkey : p.1 = q.1) : p = q := by
  induction c with
  | nil => simp at hp
  | cons a rest ih =>
    rw [List.map_cons, List.nodup_cons] at hnd
    rw [List.mem_cons] at hp hq
    rcases hp with hp | hp <;> rcases hq with hq | hq
    · rw [hp, hq]
    · exfalso
      rw [hp] at hkey
      exact hnd.1 (List.mem_map.mpr ⟨q, hq, hkey.symm⟩)
    · exfalso
      rw [hq] at hkey
      exact hnd.1 (List.mem_map.mpr ⟨p, hp, hkey⟩)
    · exact ih hnd.2 hp hq

/-- C4: whenever more than 1000 entries survive the expiry sweep run by `set`, the
capacity eviction deletes exactly 100 entries, keeps the rest in order, and
each deleted entry expires no later than each surviving entry —
i.e. the 100 soonest-to-expire entries are removed, irrespective of
insertion order. -/
theorem set_capacity_eviction (sz : T → Nat) (st : CacheManager K T)
    (key : K) (v : T) (ttl now : Int)
    (hnd : ((afterInsertSweep sz st key v ttl now).map (fun p => p.1)).Nodup)
    (hbig : 1000 < (afterInsertSweep sz st key v ttl now).length) :
    (set sz st key v ttl now).cache.length + 100
        = (afterInsertSweep sz st key v ttl now).length ∧
    List.Sublist (set sz st key v ttl now).cache
      (afterInsertSweep sz st key v ttl now) ∧
    ∀ p ∈ afterInsertSweep sz st key v ttl now,
      p ∉ (set sz st key v ttl now).cache →
      ∀ q ∈ (set sz st key v ttl now).cache, p.2.expires ≤ q.2.expires := by
  have hres : (set sz st key v ttl now).cache
      = deleteKeys
          (((List.insertionSort entryLE
              (afterInsertSweep sz st key v ttl now)).take 100).map (fun p => p.1))
          (afterInsertSweep sz st key v ttl now) := by
    rw [set_cache_eq, if_pos hbig]
  have hperm := List.perm_insertionSort entryLE (afterInsertSweep sz st key v ttl now)
  have hsortlen := hperm.length_eq
  have hkeysperm := hperm.map (fun p => p.1)
  have hndsorted : ((List.insertionSort entryLE
      (afterInsertSweep sz st key v ttl now)).map (fun p => p.1)).Nodup :=
    hkeysperm.symm.nodup hnd
  have hkstake : ((List.insertionSort entryLE
        (afterInsertSweep sz st key v ttl now)).take 100).map (fun p => p.1)
      = ((List.insertionSort entryLE
          (afterInsertSweep sz st key v ttl now)).map (fun p => p.1)).take 100 :=
    List.map_take _ _ _
  have hndks := hkstake ▸ List.Nodup.sublist (List.take_sublist _ _) hndsorted
  have hkslen : (((List.insertionSort entryLE
      (afterInsertSweep sz st key v ttl now)).take 100).map (fun p => p.1)).length
      = 100 := by
    rw [hkstake, List.length_take, List.length_map, hsortlen]
    omega
  have hksmem : ∀ k ∈ ((List.insertionSort entryLE
        (afterInsertSweep sz st key v ttl now)).take 100).map (fun p => p.1),
      k ∈ (afterInsertSweep sz st key v ttl now).map (fun p => p.1) := by
    intro k hk
    rw [List.mem_map] at hk
    obtain ⟨p, hp, hpk⟩ := hk
    exact List.mem_map.mpr
      ⟨p, hperm.mem_iff.mp ((List.take_sublist _ _).subset hp), hpk⟩
  refine ⟨?_, ?_, ?_⟩
  · rw [hres]
    have := deleteKeys_length hnd hndks hksmem
    omega
  · rw [hres]
    exact deleteKeys_sublist _ _
  · intro p hp hpnot q hq
    rw [hres] at hpnot hq
    obtain ⟨hqc, hqks⟩ := mem_deleteKeys.mp hq
    have hpks : p.1 ∈ ((List.insertionSort entryLE
        (afterInsertSweep sz st key v ttl now)).take 100).map (fun p => p.1) := by
      by_contra hcon
      exact hpnot (mem_deleteKeys.mpr ⟨hp, hcon⟩)
    rw [List.mem_map] at hpks
    obtain ⟨p', hp', hp'k⟩ := hpks
    have hp'mem : p' ∈ afterInsertSweep sz st key v ttl now :=
      hperm.mem_iff.mp ((List.take_sublist _ _).subset hp')
    have hpp' : p' = p := eq_of_mem_same_key hnd hp'mem hp hp'k
    have hqsorted : q ∈ List.insertionSort entryLE
        (afterInsertSweep sz st key v ttl now) := hperm.mem_iff.mpr hqc
    rw [← List.take_append_drop 100 (List.insertionSort entryLE
      (afterInsertSweep sz st key v ttl now)), List.mem_append] at hqsorted
    rcases hqsorted with hqtake | hqdrop
    · exact absurd (List.mem_map.mpr ⟨q, hqtake, rfl⟩) hqks
    · have hsorted := List.sorted_insertionSort entryLE
        (afterInsertSweep sz st key v ttl now)
      rw [List.Sorted, ← List.take_append_drop 100 (List.insertionSort entryLE
        (afterInsertSweep sz st key v ttl now)), List.pairwise_append] at hsorted
      have := hsorted.2.2 p' hp' q hqdrop
      rw [hpp'] at this
      exact this

end CacheManager

namespace CacheManager

theorem bigCache_keys : bigCache.cache.map (fun p => p.1) = List.range 1000 := by
  rw [bigCache, List.map_map]
  simp [Function.comp_def]

theorem bigCache_afterInsertSweep :
    afterInsertSweep (fun _ => 1) bigCache 2000 5 1 1000
      = bigCache.cache ++ [(2000, { data := 5, expires := 2000, size := 1 })] := by
  have hentry : ({ data := 5, expires := 1000 + 1 * 1000, size := (fun _ => 1) 5 } :
      CacheEntry Nat) = { data := 5, expires := 2000, size := 1 } := by
    norm_num
  unfold afterInsertSweep
  rw [hentry, bigCache_mapSet _ (by norm_num), bigCache_append_sweep (by norm_num)]

/-- Witness for C4: on `bigCache` (1000 unexpired entries) one further `set`
leaves 1001 entries after the sweep, so the hypotheses of the eviction
theorem hold and the final cache holds 901 entries. -/
theorem set_capacity_eviction_witness :
    ((afterInsertSweep (fun _ => 1) bigCache 2000 5 1 1000).map (fun p => p.1)).Nodup ∧
    1000 < (afterInsertSweep (fun _ => 1) bigCache 2000 5 1 1000).length ∧
    (set (fun _ => 1) bigCache 2000 5 1 1000).cache.length + 100
      = (afterInsertSweep (fun _ => 1) bigCache 2000 5 1 1000).length := by
  have hnd : ((afterInsertSweep (fun _ => 1) bigCache 2000 5 1 1000).map
      (fun p => p.1)).Nodup := by
    rw [bigCache_afterInsertSweep, List.map_append, bigCache_keys]
    rw [List.nodup_append]
    refine ⟨List.nodup_range _, List.nodup_singleton _, ?_⟩
    intro a ha hb
    rw [List.mem_range] at ha
    rw [List.map_cons, List.map_nil, List.mem_singleton] at hb
    omega
  have hbig : 1000 < (afterInsertSweep (fun _ => 1) bigCache 2000 5 1 1000).length := by
    rw [bigCache_afterInsertSweep, bigCache_append_length]
    norm_num
  exact ⟨hnd, hbig,
    (set_capacity_eviction (fun _ => 1) bigCache 2000 5 1 1000 hnd hbig).1⟩

end CacheManager

/-! ## Claim C8: side effects of `get` (amended) and its counterexample -/

namespace CacheManager

variable {K T : Type} [DecidableEq K]

omit [DecidableEq K] in
theorem foldl_stats (c : List (K × CacheEntry T)) (now : Int) (a b : Nat) :
    c.foldl (fun acc p => if isExpired p.2 now then acc
        else (acc.1 + p.2.size, acc.2 + 1)) (a, b)
      = (a + ((c.filter (fun p => !(isExpired p.2 now))).map
            (fun p => p.2.size)).sum,
         b + (c.filter (fun p => !(isExpired p.2 now))).length) := by
  induction c generalizing a b with
  | nil => simp
  | cons p rest ih =>
    rw [List.foldl_cons]
    by_cases hexp : isExpired p.2 now = true
    · rw [if_pos hexp, ih, List.filter_cons, if_neg (by simp [hexp])]
    · rw [if_neg hexp, ih, List.filter_cons, if_pos (by simp [hexp])]
      rw [List.map_cons, List.sum_cons, List.length_cons]
      rw [Prod.mk.injEq]
      constructor <;> omega

omit [DecidableEq K] in
theorem getStats_size_eq (st : CacheManager K T) (now : Int) (heapUsed : Nat) :
    (getStats st now heapUsed).size
      = ((st.cache.filter (fun p => !(isExpired p.2 now))).map
          (fun p => p.2.size)).sum := by
  unfold getStats
  rw [foldl_stats]
  simp

omit [DecidableEq K] in
theorem getStats_entries_eq (st : CacheManager K T) (now : Int) (heapUsed : Nat) :
    (getStats st now heapUsed).entries
      = (st.cache.filter (fun p => !(isExpired p.2 now))).length := by
  unfold getStats
  rw [foldl_stats]
  simp

theorem mapGet_of_mem_nodup {a : K × CacheEntry T} {c : List (K × CacheEntry T)}
    (hnd : (c.map (fun p => p.1)).Nodup) (ha : a ∈ c) :
    mapGet a.1 c = some a.2 := by
  induction c with
  | nil => simp at ha
  | cons p rest ih =>
    rw [List.map_cons, List.nodup_cons] at hnd
    rw [List.mem_cons] at ha
    rcases ha with ha | ha
    · rw [ha]
      unfold mapGet
      rw [List.find?_cons_of_pos _ (by simp)]
      rfl
    · have hne : ¬ (p.1 = a.1) := by
        intro hpk
        exact hnd.1 (List.mem_map.mpr ⟨a, ha, hpk.symm⟩)
      unfold mapGet
      rw [List.find?_cons_of_neg _ (by simp [hne])]
      exact ih hnd.2 ha

theorem filter_unexpired_mapDelete {k : K} {e : CacheEntry T}
    {c : List (K × CacheEntry T)} {now : Int}
    (hnd : (c.map (fun p => p.1)).Nodup) (hget : mapGet k c = some e)
    (hexp : e.expires < now) :
    (mapDelete k c).filter (fun p => !(isExpired p.2 now))
      = c.filter (fun p => !(isExpired p.2 now)) := by
  rw [mapDelete, List.filter_filter]
  refine List.filter_congr (fun a ha => ?_)
  by_cases hak : a.1 = k
  · have : mapGet k c = some a.2 := hak ▸ mapGet_of_mem_nodup hnd ha
    rw [hget] at this
    have hae : a.2 = e := by
      injection this with h2
      exact h2.symm
    have : isExpired a.2 now = true := by
      rw [hae]
      simp [isExpired, hexp]
    simp [this]
  · simp [hak]

/-- C8 (amended): `get(k)` leaves the binding of every other key untouched;
it either leaves the map unchanged or (exactly when the entry under `k` is
expired) removes that single entry; and the `size`, `entries` and
`memoryUsage` fields of `getStats` are unchanged by the `get`.  (The further
assertion of the claim that everything observable through stats is unchanged is
false: the hit/miss counters move, so `hitRate` can change — see the
counterexample.) -/
theorem get_frame (st : CacheManager K T) (k : K) (now : Int) (heapUsed : Nat)
    (hnd : (st.cache.map (fun p => p.1)).Nodup) :
    (∀ k', k' ≠ k → mapGet k' (get st k now).2.cache = mapGet k' st.cache) ∧
    ((get st k now).2.cache = st.cache ∨
      ∃ e, mapGet k st.cache = some e ∧ e.expires < now ∧
        (get st k now).2.cache = mapDelete k st.cache) ∧
    (getStats (get st k now).2 now heapUsed).size
      = (getStats st now heapUsed).size ∧
    (getStats (get st k now).2 now heapUsed).entries
      = (getStats st now heapUsed).entries ∧
    (getStats (get st k now).2 now heapUsed).memoryUsage
      = (getStats st now heapUsed).memoryUsage := by
  cases hfind : mapGet k st.cache with
  | none =>
    have hcache : (get st k now).2.cache = st.cache := by
      simp [get, hfind]
    refine ⟨fun k' _ => by rw [hcache], Or.inl hcache, ?_, ?_, ?_⟩
    · rw [getStats_size_eq, getStats_size_eq, hcache]
    · rw [getStats_entries_eq, getStats_entries_eq, hcache]
    · rfl
  | some e =>
    by_cases hexp : isExpired e now = true
    · have hcache : (get st k now).2.cache = mapDelete k st.cache := by
        simp [get, hfind, hexp]
      have hexp' : e.expires < now := by
        rw [isExpired, decide_eq_true_eq] at hexp
        exact hexp
      refine ⟨fun k' hk' => by rw [hcache, mapGet_mapDelete_ne hk'],
        Or.inr ⟨e, rfl, hexp', hcache⟩, ?_, ?_, ?_⟩
      · rw [getStats_size_eq, getStats_size_eq, hcache,
          filter_unexpired_mapDelete hnd hfind hexp']
      · rw [getStats_entries_eq, getStats_entries_eq, hcache,
          filter_unexpired_mapDelete hnd hfind hexp']
      · rfl
    · have hcache : (get st k now).2.cache = st.cache := by
        simp [get, hfind, hexp]
      refine ⟨fun k' _ => by rw [hcache], Or.inl hcache, ?_, ?_, ?_⟩
      · rw [getStats_size_eq, getStats_size_eq, hcache]
      · rw [getStats_entries_eq, getStats_entries_eq, hcache]
      · rfl

/-- Witness for C8 (amended) on a one-entry cache: a hit at key 0 leaves the
binding of key 1 and the stats entry count unchanged. -/
theorem get_frame_witness :
    ((⟨[(0, ⟨7, 10, 3⟩)], 0, 0⟩ : CacheManager Nat Nat).cache.map
        (fun p => p.1)).Nodup ∧
    mapGet 1 (get (⟨[(0, ⟨7, 10, 3⟩)], 0, 0⟩ : CacheManager Nat Nat) 0 5).2.cache
      = mapGet 1 (⟨[(0, ⟨7, 10, 3⟩)], 0, 0⟩ : CacheManager Nat Nat).cache ∧
    (getStats (get (⟨[(0, ⟨7, 10, 3⟩)], 0, 0⟩ : CacheManager Nat Nat) 0 5).2 5 0).entries
      = (getStats (⟨[(0, ⟨7, 10, 3⟩)], 0, 0⟩ : CacheManager Nat Nat) 5 0).entries := by
  have h := get_frame (⟨[(0, ⟨7, 10, 3⟩)], 0, 0⟩ : CacheManager Nat Nat) 0 5 0 (by decide)
  exact ⟨by decide, h.1 1 (by decide), h.2.2.2.1⟩

/-- C8 counterexample: a `get` is not free of observable effects on
`getStats` — a hit moves the hit counter, so the stats record (through
`hitRate`) differs before and after the `get`. -/
theorem get_stats_counterexample :
    getStats (get (⟨[(0, ⟨7, 10, 3⟩)], 0, 0⟩ : CacheManager Nat Nat) 0 5).2 5 0
      ≠ getStats (⟨[(0, ⟨7, 10, 3⟩)], 0, 0⟩ : CacheManager Nat Nat) 5 0 := by
  intro h
  have h2 := congrArg CacheStats.hitRate h
  norm_num [get, getStats, mapGet, isExpired, List.find?] at h2

end CacheManager

/-! ## Codec lemmas: base64 and hex round trips -/

namespace TokenEncryption

theorem decodeSextet_encodeSextet {n : Nat} (h : n < 64) :
    decodeSextet (encodeSextet n) = some n := by
  have hall : ∀ m, m < 64 → decodeSextet (encodeSextet m) = some m := by decide
  exact hall n h

theorem decodeSextet_pad : decodeSextet 61 = none := by decide

theorem base64_roundtrip : ∀ bs : List Nat, (∀ b ∈ bs, b < 256) →
    base64DecodeBytes (base64EncodeBytes bs) = bs := by
  intro bs
  induction bs using base64EncodeBytes.induct with
  | case1 => intro _; rfl
  | case2 b0 =>
    intro h
    have hb0 : b0 < 256 := h b0 (by simp)
    have h1 : decodeSextet (encodeSextet (b0 / 4)) = some (b0 / 4) :=
      decodeSextet_encodeSextet (by omega)
    have h2 : decodeSextet (encodeSextet (b0 % 4 * 16)) = some (b0 % 4 * 16) :=
      decodeSextet_encodeSextet (by omega)
    rw [base64EncodeBytes, base64DecodeBytes,
      List.filterMap_cons_some h1, List.filterMap_cons_some h2,
      List.filterMap_cons_none decodeSextet_pad,
      List.filterMap_cons_none decodeSextet_pad, List.filterMap_nil]
    rw [sextetsToBytes, List.cons.injEq]
    exact ⟨by omega, rfl⟩
  | case3 b0 b1 =>
    intro h
    have hb0 : b0 < 256 := h b0 (by simp)
    have hb1 : b1 < 256 := h b1 (by simp)
    have h1 : decodeSextet (encodeSextet (b0 / 4)) = some (b0 / 4) :=
      decodeSextet_encodeSextet (by omega)
    have h2 : decodeSextet (encodeSextet (b0 % 4 * 16 + b1 / 16))
        = some (b0 % 4 * 16 + b1 / 16) :=
      decodeSextet_encodeSextet (by omega)
    have h3 : decodeSextet (encodeSextet (b1 % 16 * 4)) = some (b1 % 16 * 4) :=
      decodeSextet_encodeSextet (by omega)
    rw [base64EncodeBytes, base64DecodeBytes,
      List.filterMap_cons_some h1, List.filterMap_cons_some h2,
      List.filterMap_cons_some h3,
      List.filterMap_cons_none decodeSextet_pad, List.filterMap_nil]
    rw [sextetsToBytes, List.cons.injEq, List.cons.injEq]
    exact ⟨by omega, by omega, rfl⟩
  | case4 b0 b1 b2 rest ih =>
    intro h
    have hb0 : b0 < 256 := h b0 (by simp)
    have hb1 : b1 < 256 := h b1 (by simp)
    have hb2 : b2 < 256 := h b2 (by simp)
    have hrest : ∀ b ∈ rest, b < 256 := fun b hb => h b (by simp [hb])
    have h1 : decodeSextet (encodeSextet (b0 / 4)) = some (b0 / 4) :=
      decodeSextet_encodeSextet (by omega)
    have h2 : decodeSextet (encodeSextet (b0 % 4 * 16 + b1 / 16))
        = some (b0 % 4 * 16 + b1 / 16) :=
      decodeSextet_encodeSextet (by omega)
    have h3 : decodeSextet (encodeSextet (b1 % 16 * 4 + b2 / 64))
        = some (b1 % 16 * 4 + b2 / 64) :=
      decodeSextet_encodeSextet (by omega)
    have h4 : decodeSextet (encodeSextet (b2 % 64)) = some (b2 % 64) :=
      decodeSextet_encodeSextet (by omega)
    have ihr := ih hrest
    rw [base64DecodeBytes] at ihr
    rw [base64EncodeBytes, base64DecodeBytes,
      List.filterMap_cons_some h1, List.filterMap_cons_some h2,
      List.filterMap_cons_some h3, List.filterMap_cons_some h4]
    rw [sextetsToBytes, ihr, List.cons.injEq, List.cons.injEq, List.cons.injEq]
    exact ⟨by omega, by omega, by omega, rfl⟩

theorem base64_decode_length_of_encode (bs : List Nat) (h : ∀ b ∈ bs, b < 256) :
    (base64DecodeBytes (base64EncodeBytes bs)).length = bs.length := by
  rw [base64_roundtrip bs h]

theorem decodeHexDigit_hexDigit {n : Nat} (h : n < 16) :
    decodeHexDigit (hexDigit n) = some n := by
  have hall : ∀ m, m < 16 → decodeHexDigit (hexDigit m) = some m := by decide
  exact hall n h

theorem hex_roundtrip : ∀ bs : List Nat, (∀ b ∈ bs, b < 256) →
    hexDecodeBytes (hexEncodeBytes bs) = bs := by
  intro bs
  induction bs with
  | nil => intro _; rfl
  | cons b rest ih =>
    intro h
    have hb : b < 256 := h b (by simp)
    have hrest : ∀ x ∈ rest, x < 256 := fun x hx => h x (by simp [hx])
    rw [hexEncodeBytes, hexDecodeBytes,
      decodeHexDigit_hexDigit (by omega : b / 16 < 16),
      decodeHexDigit_hexDigit (by omega : b % 16 < 16)]
    rw [ih hrest, List.cons.injEq]
    exact ⟨by omega, rfl⟩

end TokenEncryption

/-! ## Cipher lemmas: key derivation and ciphertext layout -/

namespace TokenEncryption

theorem getEncryptionKey_length (C : NodeCrypto) (env : Option (List Nat)) :
    (getEncryptionKey C env).length = 32 := by
  cases env with
  | none => exact C.sha256_length _
  | some k => exact C.sha256_length _

theorem encrypt_eq_encode_combined (C : NodeCrypto) (env : Option (List Nat))
    (iv token : List Nat) (htok : ∀ b ∈ token, b < 256) :
    encrypt C env iv token
      = base64EncodeBytes
          (iv ++ (C.gcmEnc (getEncryptionKey C env) iv token).1
            ++ (C.gcmEnc (getEncryptionKey C env) iv token).2) := by
  show base64EncodeBytes
      (iv ++ hexDecodeBytes (hexEncodeBytes
          (C.gcmEnc (getEncryptionKey C env) iv token).1)
        ++ (C.gcmEnc (getEncryptionKey C env) iv token).2) = _
  rw [hex_roundtrip _ (C.gcmEnc_ct_bytes _ _ _ htok)]

theorem combined_bytes_lt (C : NodeCrypto) (env : Option (List Nat))
    (iv token : List Nat) (hivb : ∀ b ∈ iv, b < 256)
    (htok : ∀ b ∈ token, b < 256) :
    ∀ b ∈ iv ++ (C.gcmEnc (getEncryptionKey C env) iv token).1
        ++ (C.gcmEnc (getEncryptionKey C env) iv token).2, b < 256 := by
  intro b hb
  rw [List.mem_append] at hb
  rcases hb with hb | hb
  · rw [List.mem_append] at hb
    rcases hb with hb | hb
    · exact hivb b hb
    · exact C.gcmEnc_ct_bytes _ _ _ htok b hb
  · exact C.gcmEnc_tag_bytes _ _ _ b hb

theorem decode_encrypt_eq (C : NodeCrypto) (env : Option (List Nat))
    (iv token : List Nat) (hivb : ∀ b ∈ iv, b < 256)
    (htok : ∀ b ∈ token, b < 256) :
    base64DecodeBytes (encrypt C env iv token)
      = iv ++ (C.gcmEnc (getEncryptionKey C env) iv token).1
          ++ (C.gcmEnc (getEncryptionKey C env) iv token).2 := by
  rw [encrypt_eq_encode_combined C env iv token htok,
    base64_roundtrip _ (combined_bytes_lt C env iv token hivb htok)]

theorem decode_encrypt_length (C : NodeCrypto) (env : Option (List Nat))
    (iv token : List Nat) (hiv12 : iv.length = IV_LENGTH)
    (hivb : ∀ b ∈ iv, b < 256) (htok : ∀ b ∈ token, b < 256) :
    (base64DecodeBytes (encrypt C env iv token)).length = token.length + 28 := by
  rw [decode_encrypt_eq C env iv token hivb htok]
  rw [List.length_append, List.length_append, hiv12,
    C.gcmEnc_ct_length, C.gcmEnc_tag_length, IV_LENGTH]
  omega

end TokenEncryption

/-! ## Claim theorems: token cipher (C1, C5, C6, C9) -/

namespace TokenEncryption

theorem decrypt_def (C : NodeCrypto) (env : Option (List Nat)) (input : List Nat) :
    decrypt C env input
      = match C.gcmDec (getEncryptionKey C env)
          ((base64DecodeBytes input).take IV_LENGTH)
          (((base64DecodeBytes input).take
              ((base64DecodeBytes input).length - TAG_LENGTH)).drop IV_LENGTH)
          ((base64DecodeBytes input).drop
              ((base64DecodeBytes input).length - TAG_LENGTH)) with
        | some decrypted => decrypted
        | none => input := rfl

/-- C1: decrypting the result of encrypting a token returns the token,
for every 12-byte nonce and every token byte sequence, provided the same
key-derivation input `env` (environment secret or the fixed fallback) is
used for both calls.  Quantified over any `NodeCrypto` satisfying the
AES-256-GCM contract. -/
theorem decrypt_encrypt_roundtrip (C : NodeCrypto) (env : Option (List Nat))
    (iv token : List Nat) (hiv12 : iv.length = IV_LENGTH)
    (hivb : ∀ b ∈ iv, b < 256) (htok : ∀ b ∈ token, b < 256) :
    decrypt C env (encrypt C env iv token) = token := by
  have hdec := decode_encrypt_eq C env iv token hivb htok
  have hlen := decode_encrypt_length C env iv token hiv12 hivb htok
  have hctlen : (C.gcmEnc (getEncryptionKey C env) iv token).1.length
      = token.length := C.gcmEnc_ct_length _ _ _
  have htglen : (C.gcmEnc (getEncryptionKey C env) iv token).2.length = 16 :=
    C.gcmEnc_tag_length _ _ _
  have hsplit : token.length + 28 - TAG_LENGTH
      = (iv ++ (C.gcmEnc (getEncryptionKey C env) iv token).1).length := by
    rw [List.length_append, hiv12, hctlen, TAG_LENGTH, IV_LENGTH]
    omega
  have hivtake : (base64DecodeBytes (encrypt C env iv token)).take IV_LENGTH
      = iv := by
    rw [hdec, List.append_assoc, List.take_left' hiv12]
  have htagdrop : (base64DecodeBytes (encrypt C env iv token)).drop
      ((base64DecodeBytes (encrypt C env iv token)).length - TAG_LENGTH)
      = (C.gcmEnc (getEncryptionKey C env) iv token).2 := by
    rw [hlen, hdec, hsplit, List.drop_left]
  have hmid : ((base64DecodeBytes (encrypt C env iv token)).take
      ((base64DecodeBytes (encrypt C env iv token)).length - TAG_LENGTH)).drop
        IV_LENGTH = (C.gcmEnc (getEncryptionKey C env) iv token).1 := by
    rw [hlen, hdec, hsplit, List.take_left, List.drop_left' hiv12]
  rw [decrypt_def, hivtake, htagdrop, hmid,
    C.gcmDec_gcmEnc _ _ token (getEncryptionKey_length C env) hiv12]

/-- Witness for C1 with the identity instance of the cipher contract, a
concrete 12-byte nonce and the token bytes `[1, 2, 3]`. -/
theorem decrypt_encrypt_roundtrip_witness :
    (List.replicate 12 7).length = IV_LENGTH ∧
    decrypt idCrypto none
      (encrypt idCrypto none (List.replicate 12 7) [1, 2, 3]) = [1, 2, 3] :=
  ⟨by decide,
    decrypt_encrypt_roundtrip idCrypto none (List.replicate 12 7) [1, 2, 3]
      (by decide) (by decide) (by decide)⟩

/-- C5: whenever the underlying authenticated decryption fails on the parsed
pieces of the input (wrong length, bad tag, bad base64 all surface there),
`decrypt` returns its input unchanged rather than propagating the failure —
in the model `decrypt` is a total function, so it never throws. -/
theorem decrypt_failure_passthrough (C : NodeCrypto) (env : Option (List Nat))
    (input : List Nat)
    (hfail : C.gcmDec (getEncryptionKey C env)
        ((base64DecodeBytes input).take IV_LENGTH)
        (((base64DecodeBytes input).take
            ((base64DecodeBytes input).length - TAG_LENGTH)).drop IV_LENGTH)
        ((base64DecodeBytes input).drop
            ((base64DecodeBytes input).length - TAG_LENGTH)) = none) :
    decrypt C env input = input := by
  rw [decrypt_def, hfail]

/-- Witness for C5: the single character `A` is not a well-formed
ciphertext (it decodes to no bytes at all), decryption of the empty pieces
fails, and `decrypt` returns the input unchanged. -/
theorem decrypt_failure_passthrough_witness :
    idCrypto.gcmDec (getEncryptionKey idCrypto none)
        ((base64DecodeBytes [65]).take IV_LENGTH)
        (((base64DecodeBytes [65]).take
            ((base64DecodeBytes [65]).length - TAG_LENGTH)).drop IV_LENGTH)
        ((base64DecodeBytes [65]).drop
            ((base64DecodeBytes [65]).length - TAG_LENGTH)) = none ∧
    decrypt idCrypto none [65] = [65] :=
  ⟨by decide, decrypt_failure_passthrough idCrypto none [65] (by decide)⟩

/-- C6: the base64-decoded output of `encrypt` is exactly
`nonce(12) || ciphertext || tag(16)` and its raw byte length is the token
byte length plus 28. -/
theorem encrypt_layout (C : NodeCrypto) (env : Option (List Nat))
    (iv token : List Nat) (hiv12 : iv.length = IV_LENGTH)
    (hivb : ∀ b ∈ iv, b < 256) (htok : ∀ b ∈ token, b < 256) :
    base64DecodeBytes (encrypt C env iv token)
      = iv ++ (C.gcmEnc (getEncryptionKey C env) iv token).1
          ++ (C.gcmEnc (getEncryptionKey C env) iv token).2 ∧
    (base64DecodeBytes (encrypt C env iv token)).length = token.length + 28 :=
  ⟨decode_encrypt_eq C env iv token hivb htok,
   decode_encrypt_length C env iv token hiv12 hivb htok⟩

/-- Witness for C6 at the identity cipher instance and token `[1, 2, 3]`:
the decoded ciphertext has the concrete layout and length 31. -/
theorem encrypt_layout_witness :
    base64DecodeBytes (encrypt idCrypto none (List.replicate 12 7) [1, 2, 3])
      = List.replicate 12 7
          ++ (idCrypto.gcmEnc (getEncryptionKey idCrypto none)
                (List.replicate 12 7) [1, 2, 3]).1
          ++ (idCrypto.gcmEnc (getEncryptionKey idCrypto none)
                (List.replicate 12 7) [1, 2, 3]).2 ∧
    (base64DecodeBytes (encrypt idCrypto none (List.replicate 12 7)
        [1, 2, 3])).length = 3 + 28 :=
  encrypt_layout idCrypto none (List.replicate 12 7) [1, 2, 3]
    (by decide) (by decide) (by decide)

/-- C9 counterexample: `isEncrypted` does not test for a decoded length of
at least 28 —
a base64 text decoding to exactly 28 bytes (the encoding of 28 zero bytes)
meets the claimed 28-byte minimum yet `isEncrypted` answers `false`,
because the code requires `IV_LENGTH + TAG_LENGTH + 1 = 29` bytes. -/
theorem isEncrypted_28_counterexample :
    28 ≤ (base64DecodeBytes (base64EncodeBytes (List.replicate 28 0))).length ∧
    isEncrypted (base64EncodeBytes (List.replicate 28 0)) = false := by
  constructor
  · rw [base64_roundtrip _ (fun b hb => by rw [List.eq_of_mem_replicate hb]; omega)]
    simp
  · decide

/-- C9 (amended): `isEncrypted` answers `true` exactly when the base64
decoding of its argument has at least `IV_LENGTH + TAG_LENGTH + 1 = 29`
bytes (nonce plus tag plus at least one ciphertext byte); consequently it
answers `true` on the output of `encrypt` for any non-empty token, and
`false` on the short non-base64 text `hi!`. -/
theorem isEncrypted_amended (C : NodeCrypto) (env : Option (List Nat))
    (iv token : List Nat) (hiv12 : iv.length = IV_LENGTH)
    (hivb : ∀ b ∈ iv, b < 256) (htok : ∀ b ∈ token, b < 256)
    (hne : token ≠ []) :
    isEncrypted (encrypt C env iv token) = true ∧
    (∀ bs : List Nat, isEncrypted bs = true ↔
      IV_LENGTH + TAG_LENGTH + 1 ≤ (base64DecodeBytes bs).length) ∧
    isEncrypted [104, 105, 33] = false := by
  refine ⟨?_, fun bs => by rw [isEncrypted, decide_eq_true_eq], by decide⟩
  rw [isEncrypted, decide_eq_true_eq,
    decode_encrypt_length C env iv token hiv12 hivb htok]
  have := List.length_pos.mpr hne
  rw [IV_LENGTH, TAG_LENGTH]
  omega

/-- Witness for C9 (amended) at the identity cipher instance and the
non-empty token `[1, 2, 3]`. -/
theorem isEncrypted_amended_witness :
    isEncrypted (encrypt idCrypto none (List.replicate 12 7) [1, 2, 3]) = true ∧
    isEncrypted [104, 105, 33] = false :=
  ⟨(isEncrypted_amended idCrypto none (List.replicate 12 7) [1, 2, 3]
      (by decide) (by decide) (by decide) (by decide)).1,
   (isEncrypted_amended idCrypto none (List.replicate 12 7) [1, 2, 3]
      (by decide) (by decide) (by decide) (by decide)).2.2⟩

end TokenEncryption
